import Mathlib

/-!
Verification development for the sigil magic-number engine.

The definitions below are a shallow embedding of the Rust sources:
* `src/trie.rs` — `TrieNode`, `MagicNumberTrie`, `insert`, `trie_match`,
  `search`, and the catalog-loading loop of `from_file`;
* `src/file_manager.rs` — the pure part of `get_file_info`;
* `src/lib.rs` — the classification logic of `process_file`.

Bytes are modelled as `Nat` (the code only ever compares them for
equality), the `HashMap<u8, Box<TrieNode>>` of children as an
association list with lookup/update semantics, and the `HashSet<u32>`
of offsets as a duplicate-free list.  The `u32` counters of
`MagicNumberTrie` are modelled as `Nat` with an explicit `% 2 ^ 32` at
the two places the source leaves the `u32` range: the
`signature.len() as u32` cast and the wrapping `max_offset_len +
max_signature_len` addition.  Fallible I/O is modelled with `Except`;
the file system is abstracted into a `FileModel` record.
-/

/-- A node of the signature trie: an optional file-type label plus a map
from byte values to owned child nodes (struct `TrieNode` in
`src/trie.rs`).  The `HashMap` of children is modelled as an association
list; only its lookup/update behaviour is observable. -/
inductive TrieNode : Type where
  | mk : Option String → List (Nat × TrieNode) → TrieNode

/-- The `file_type` field of a `TrieNode`. -/
def TrieNode.file_type : TrieNode → Option String
  | .mk l _ => l

/-- The `children` field of a `TrieNode`. -/
def TrieNode.children : TrieNode → List (Nat × TrieNode)
  | .mk _ c => c

/-- Lookup of a byte in the children map (`HashMap::get`). -/
def lookupChild : List (Nat × TrieNode) → Nat → Option TrieNode
  | [], _ => none
  | (k, v) :: rest, b => if k = b then some v else lookupChild rest b

/-- Store a binding in the children map: replace the binding for the key
if present, otherwise add a new one (the effect of the
`entry(byte).or_default()` API of `HashMap` followed by mutation). -/
def updateChild : List (Nat × TrieNode) → Nat → TrieNode → List (Nat × TrieNode)
  | [], b, node => [(b, node)]
  | (k, v) :: rest, b, node =>
      if k = b then (b, node) :: rest else (k, v) :: updateChild rest b node

/-- `MagicNumberTrie::insert` (`src/trie.rs` lines 87–94): walk the trie
along the signature bytes, creating a default child node whenever a byte
has no edge yet, and set the label of the final node. -/
def TrieNode.insert : TrieNode → List Nat → String → TrieNode
  | .mk _ ch, [], ft => .mk (some ft) ch
  | .mk l ch, b :: bs, ft =>
      .mk l (updateChild ch b
        (TrieNode.insert ((lookupChild ch b).getD (.mk none [])) bs ft))

/-- The loop body of `MagicNumberTrie::trie_match` (`src/trie.rs` lines
127–136): follow the child edge for each byte; whenever the node just
entered carries a label, record it as the current best match; stop at
the first missing edge or when the input is exhausted. -/
def trieMatchGo : TrieNode → List Nat → Option String → Option String
  | _, [], best => best
  | .mk _ ch, b :: rest, best =>
      match lookupChild ch b with
      | none => best
      | some next =>
          trieMatchGo next rest
            (match next.file_type with
             | some ft => some ft
             | none => best)

/-- `MagicNumberTrie::trie_match` on an explicit root node: the walk
starts at the root with `best_match = None`. -/
def trieMatchRoot (root : TrieNode) (file_header : List Nat) : Option String :=
  trieMatchGo root file_header none

/-- `struct MagicNumberTrie` (`src/trie.rs` lines 32–40). -/
structure MagicNumberTrie : Type where
  root : TrieNode
  max_buffer_size : Nat
  max_offset_len : Nat
  max_signature_len : Nat
  possible_offsets : List Nat

/-- `MagicNumberTrie::trie_match` (`src/trie.rs` lines 123–139). -/
def MagicNumberTrie.trie_match (t : MagicNumberTrie) (file_header : List Nat) : Option String :=
  trieMatchRoot t.root file_header

/-- The offset loop of `MagicNumberTrie::search` (`src/trie.rs` lines
105–119): try each offset in the given order; skip an offset when the
buffer is shorter than it; otherwise run the trie walk on the sub-slice
starting at the offset and return its result as soon as it is non-empty. -/
def searchOffsets (root : TrieNode) : List Nat → List Nat → Option String
  | [], _ => none
  | offset :: rest, file_header =>
      if file_header.length < offset then searchOffsets root rest file_header
      else
        match trieMatchRoot root (file_header.drop offset) with
        | some ft => some ft
        | none => searchOffsets root rest file_header

/-- `MagicNumberTrie::search` (`src/trie.rs` lines 104–120). -/
def MagicNumberTrie.search (t : MagicNumberTrie) (file_header : List Nat) : Option String :=
  searchOffsets t.root t.possible_offsets file_header

/-- `struct SignatureEntry` (`src/trie.rs` lines 14–19): one catalog
entry with a type label, an offset and the signature bytes. -/
structure SignatureEntry : Type where
  type : String
  offset : Nat
  signature : List Nat
deriving DecidableEq

/-- `MagicNumberTrie::default()`: empty root, all counters zero, no
offsets. -/
def MagicNumberTrie.defaultTrie : MagicNumberTrie :=
  ⟨.mk none [], 0, 0, 0, []⟩

/-- `HashSet::insert` on the set of offsets, modelled on a
duplicate-free list: adding an element already present leaves the set
unchanged. -/
def insertSet (s : List Nat) (x : Nat) : List Nat :=
  if x ∈ s then s else x :: s

/-- Insertion of one element into an ascending list, the building block
of the sort that models `Vec::sort` on the collected offsets. -/
def insSorted (x : Nat) : List Nat → List Nat
  | [] => [x]
  | y :: ys => if x ≤ y then x :: y :: ys else y :: insSorted x ys

/-- Ascending sort of the collected offsets (`possible_offsets.sort()`,
`src/trie.rs` line 81).  The `HashSet` iteration order is arbitrary and
then sorted, so any sort produces the same observable list. -/
def sortOffsets (l : List Nat) : List Nat :=
  l.foldr insSorted []

/-- The modulus of `u32` arithmetic: the counters of `MagicNumberTrie`
are `u32`, so values are taken mod `2 ^ 32` wherever the source casts
or adds. -/
def u32Size : Nat := 4294967296

/-- One iteration of the catalog loop of `MagicNumberTrie::from_file`
(`src/trie.rs` lines 64–77): insert the signature, record the offset in
the set, and bump the two maxima exactly as the source does.  The
signature length is truncated to `u32` (`entry.signature.len() as u32`,
line 73) before the comparison and the update. -/
def buildStep (s : MagicNumberTrie × List Nat) (e : SignatureEntry) : MagicNumberTrie × List Nat :=
  let t0 := { s.1 with root := s.1.root.insert e.signature e.type }
  let uo := insertSet s.2 e.offset
  let t1 := if t0.max_offset_len < e.offset then { t0 with max_offset_len := e.offset } else t0
  let signature_len := e.signature.length % u32Size
  let t2 := if t1.max_signature_len < signature_len
            then { t1 with max_signature_len := signature_len } else t1
  (t2, uo)

/-- The catalog-loading part of `MagicNumberTrie::from_file`
(`src/trie.rs` lines 61–83), after JSON parsing: fold the loop body over
the entries starting from the default trie and an empty offset set, then
set `max_buffer_size` to the sum of the two maxima and
`possible_offsets` to the sorted offset set.  The sum at line 79 is a
`u32` addition, which wraps mod `2 ^ 32` in a release build (a debug
build would panic on the same overflow); the wrapping value is what the
shipped program computes. -/
def from_entries (signatures : List SignatureEntry) : MagicNumberTrie :=
  let p := signatures.foldl buildStep (MagicNumberTrie.defaultTrie, [])
  { p.1 with
    max_buffer_size := (p.1.max_offset_len + p.1.max_signature_len) % u32Size,
    possible_offsets := sortOffsets p.2 }

/-- `struct FileSignature` (`src/file_manager.rs` lines 34–42). -/
structure FileSignature : Type where
  declared_type : String
  actual_type : String
  buffer : List Nat

/-- Abstraction of one file-system entry as `process_file` and
`get_file_info` observe it: whether the path is a regular file, the
extension (if any), the readable content (`none` models a read failure),
and the message the failing read would produce. -/
structure FileModel : Type where
  path : String
  is_file : Bool
  extension : Option String
  content : Option (List Nat)
  read_error_message : String

/-- Rust `str::to_uppercase`, modelled character-wise: the catalog
labels and file extensions are ASCII, where character-wise upper-casing
agrees with the Unicode full upper-casing the source performs. -/
def to_uppercase (s : String) : String := ⟨s.data.map Char.toUpper⟩

/-- The pure behaviour of `get_file_info` (`src/file_manager.rs` lines
74–87): fail with the `MissingExtension` message when there is no
extension, fail with the I/O message when the read fails, and otherwise
return the upper-cased extension together with the first `buffer_size`
bytes of the file (`File::read` into a `buffer_size` buffer followed by
`truncate`). -/
def get_file_info (f : FileModel) (buffer_size : Nat) : Except String FileSignature :=
  match f.extension with
  | none => .error "File has no extension"
  | some ext =>
      match f.content with
      | none => .error f.read_error_message
      | some bytes => .ok ⟨to_uppercase ext, "", bytes.take buffer_size⟩

/-- `enum FileResult` (`src/lib.rs` lines 31–42). -/
inductive FileResult : Type where
  | Correct : String → FileResult
  | Incorrect : String → String → String → FileResult
  | Error : String → String → FileResult
deriving DecidableEq

/-- Whether the byte-for-byte sequence `needle` occurs as a contiguous
sub-sequence of `hay` starting at its first position. -/
def startsWithList : List Char → List Char → Bool
  | _, [] => true
  | [], _ :: _ => false
  | h :: hs, n :: ns => h = n && startsWithList hs ns

/-- Whether `needle` occurs as a contiguous sub-sequence of `hay` at any
position. -/
def containsSubList : List Char → List Char → Bool
  | [], needle => needle.isEmpty
  | h :: hs, needle => startsWithList (h :: hs) needle || containsSubList hs needle

/-- Rust `str::contains(&str)`: case-sensitive substring containment,
expressed on the character sequences of the two strings. -/
def strContains (hay needle : String) : Bool :=
  containsSubList hay.data needle.data

/-- `process_file` (`src/lib.rs` lines 140–166): reject non-files,
propagate `get_file_info` failures as `Error`, and otherwise classify by
searching the trie: `Correct` when the found label contains the declared
type, `Incorrect` with the found label otherwise, and `Incorrect` with
actual type `"Unknown"` when the search finds nothing. -/
def process_file (f : FileModel) (trie : MagicNumberTrie) : FileResult :=
  if !f.is_file then .Error f.path "The provided path is not a file."
  else
    match get_file_info f trie.max_buffer_size with
    | .error e => .Error f.path e
    | .ok info =>
        match trie.search info.buffer with
        | some actual_type =>
            if strContains actual_type info.declared_type
            then .Correct f.path
            else .Incorrect f.path info.declared_type actual_type
        | none => .Incorrect f.path info.declared_type "Unknown"

/-! ## Specification-side definitions

These follow the words of the specification, for comparison with the
definitions above. -/

/-- Modelled from the spec: "the maximum offset seen" across all catalog
entries (zero for an empty catalog). -/
def specMaxOffset (es : List SignatureEntry) : Nat :=
  es.foldr (fun e m => Nat.max e.offset m) 0

/-- Modelled from the spec: "the maximum signature length seen" across
all catalog entries (zero for an empty catalog). -/
def specMaxSigLen (es : List SignatureEntry) : Nat :=
  es.foldr (fun e m => Nat.max e.signature.length m) 0

/-- The maximum `u32`-truncated signature length across all catalog
entries: what the loop of `from_file` actually tracks, since each
length passes through the `as u32` cast before the comparison. -/
def specMaxSigLen32 (es : List SignatureEntry) : Nat :=
  es.foldr (fun e m => Nat.max (e.signature.length % u32Size) m) 0

/-- The linear trie holding exactly one signature: a chain of nodes
along the given bytes whose final node carries the label.  Used to
characterise what `insert` builds in an empty trie. -/
def pathNode : List Nat → String → TrieNode
  | [], l => .mk (some l) []
  | b :: bs, l => .mk none [(b, pathNode bs l)]

/-- The linear trie holding two signatures `A` and `A ++ c :: cs`: a
chain along `A` whose end carries the first label and continues along
`c :: cs` to a final node carrying the second label.  Used to
characterise what inserting a signature and a strict extension of it
builds. -/
def pathNode2 : List Nat → Nat → List Nat → String → String → TrieNode
  | [], c, cs, la, lb => .mk (some la) [(c, pathNode cs lb)]
  | a :: as, c, cs, la, lb => .mk none [(a, pathNode2 as c cs la lb)]

/-- Observation function for stating properties of `insert`: the label
carried by the node reached from `n` by following the byte sequence
(`none` when the path does not exist or the node is unlabelled). -/
def labelAt : TrieNode → List Nat → Option String
  | n, [] => n.file_type
  | n, b :: bs =>
      match lookupChild n.children b with
      | none => none
      | some c => labelAt c bs

/-! ## Helper lemmas: the children map -/

theorem lookupChild_updateChild_self (ch : List (Nat × TrieNode)) (b : Nat) (x : TrieNode) :
    lookupChild (updateChild ch b x) b = some x := by
  induction ch with
  | nil => simp [updateChild, lookupChild]
  | cons kv rest ih =>
      obtain ⟨k, v⟩ := kv
      by_cases hk : k = b
      · simp [updateChild, lookupChild, hk]
      · simp [updateChild, lookupChild, hk, ih]

theorem updateChild_updateChild_self (ch : List (Nat × TrieNode)) (b : Nat) (x y : TrieNode) :
    updateChild (updateChild ch b x) b y = updateChild ch b y := by
  induction ch with
  | nil => simp [updateChild]
  | cons kv rest ih =>
      obtain ⟨k, v⟩ := kv
      by_cases hk : k = b
      · simp [updateChild, hk]
      · simp [updateChild, hk, ih]

/-! ## Helper lemmas: what `insert` builds -/

theorem insert_empty_eq_pathNode (s : List Nat) (l : String) :
    TrieNode.insert (.mk none []) s l = pathNode s l := by
  induction s with
  | nil => rfl
  | cons b bs ih =>
      simp [TrieNode.insert, lookupChild, updateChild, pathNode, ih]

theorem insert_extension_eq_pathNode2 (A : List Nat) (c : Nat) (cs : List Nat) (la lb : String) :
    TrieNode.insert (pathNode A la) (A ++ c :: cs) lb = pathNode2 A c cs la lb := by
  induction A with
  | nil =>
      simp [pathNode, pathNode2, TrieNode.insert, lookupChild, updateChild,
        insert_empty_eq_pathNode]
  | cons a as ih =>
      simp [pathNode, pathNode2, TrieNode.insert, lookupChild, updateChild, ih]

theorem insert_along_eq_pathNode2 (A : List Nat) (c : Nat) (cs : List Nat) (la lb : String) :
    TrieNode.insert (pathNode (A ++ c :: cs) lb) A la = pathNode2 A c cs la lb := by
  induction A with
  | nil => simp [pathNode, pathNode2, TrieNode.insert]
  | cons a as ih =>
      simp [pathNode, pathNode2, TrieNode.insert, lookupChild, updateChild, ih]

/-! ## Helper lemmas: the trie walk on linear tries -/

theorem trieMatchGo_leaf (o : Option String) (rest : List Nat) (best : Option String) :
    trieMatchGo (.mk o []) rest best = best := by
  cases rest with
  | nil => rfl
  | cons r rs => simp [trieMatchGo, lookupChild]

theorem trieMatchGo_enter_pathNode (cs rest : List Nat) (lb : String) (best : Option String) :
    trieMatchGo (pathNode cs lb) (cs ++ rest)
      (match (pathNode cs lb).file_type with
       | some ft => some ft
       | none => best) = some lb := by
  induction cs generalizing best with
  | nil => simp [pathNode, TrieNode.file_type, trieMatchGo_leaf]
  | cons y ys ih =>
      simp only [pathNode, TrieNode.file_type, List.cons_append]
      simp only [trieMatchGo, lookupChild, if_pos rfl]
      exact ih best

theorem trieMatchGo_pathNode2 (A : List Nat) (c : Nat) (cs rest : List Nat) (la lb : String)
    (best : Option String) :
    trieMatchGo (pathNode2 A c cs la lb) (A ++ c :: (cs ++ rest)) best = some lb := by
  induction A generalizing best with
  | nil =>
      simp only [pathNode2, List.nil_append]
      simp only [trieMatchGo, lookupChild, if_pos rfl]
      exact trieMatchGo_enter_pathNode cs rest lb best
  | cons a as ih =>
      simp only [pathNode2, List.cons_append]
      simp only [trieMatchGo, lookupChild, if_pos rfl]
      exact ih _

/-! ## Helper lemmas: what one build step does to each field -/

theorem buildStep_snd (s : MagicNumberTrie × List Nat) (e : SignatureEntry) :
    (buildStep s e).2 = insertSet s.2 e.offset := rfl

theorem buildStep_root (s : MagicNumberTrie × List Nat) (e : SignatureEntry) :
    (buildStep s e).1.root = s.1.root.insert e.signature e.type := by
  simp only [buildStep]
  split <;> split <;> rfl

theorem buildStep_max_offset (s : MagicNumberTrie × List Nat) (e : SignatureEntry) :
    (buildStep s e).1.max_offset_len = Nat.max s.1.max_offset_len e.offset := by
  simp only [buildStep]
  split <;> split <;> simp_all <;> try omega

theorem buildStep_max_sig (s : MagicNumberTrie × List Nat) (e : SignatureEntry) :
    (buildStep s e).1.max_signature_len
      = Nat.max s.1.max_signature_len (e.signature.length % u32Size) := by
  simp only [buildStep]
  split <;> split <;> simp_all <;> try omega

theorem buildStep_mbs (s : MagicNumberTrie × List Nat) (e : SignatureEntry) :
    (buildStep s e).1.max_buffer_size = s.1.max_buffer_size := by
  simp only [buildStep]
  split <;> split <;> rfl

/-! ## Helper lemmas: the catalog fold, field by field -/

theorem foldl_buildStep_snd (es : List SignatureEntry) :
    ∀ s : MagicNumberTrie × List Nat,
      (es.foldl buildStep s).2 = es.foldl (fun u e => insertSet u e.offset) s.2 := by
  induction es with
  | nil => intro s; rfl
  | cons e es ih =>
      intro s
      simp only [List.foldl_cons]
      rw [ih, buildStep_snd]

theorem foldl_buildStep_root (es : List SignatureEntry) :
    ∀ s : MagicNumberTrie × List Nat,
      (es.foldl buildStep s).1.root
        = es.foldl (fun r e => r.insert e.signature e.type) s.1.root := by
  induction es with
  | nil => intro s; rfl
  | cons e es ih =>
      intro s
      simp only [List.foldl_cons]
      rw [ih, buildStep_root]

theorem foldl_buildStep_max_offset (es : List SignatureEntry) :
    ∀ s : MagicNumberTrie × List Nat,
      (es.foldl buildStep s).1.max_offset_len
        = Nat.max s.1.max_offset_len (specMaxOffset es) := by
  induction es with
  | nil => intro s; simp [specMaxOffset]
  | cons e es ih =>
      intro s
      simp only [List.foldl_cons]
      rw [ih, buildStep_max_offset]
      simp only [specMaxOffset, List.foldr_cons]
      exact Nat.max_assoc ..

theorem foldl_buildStep_max_sig (es : List SignatureEntry) :
    ∀ s : MagicNumberTrie × List Nat,
      (es.foldl buildStep s).1.max_signature_len
        = Nat.max s.1.max_signature_len (specMaxSigLen32 es) := by
  induction es with
  | nil => intro s; simp [specMaxSigLen32]
  | cons e es ih =>
      intro s
      simp only [List.foldl_cons]
      rw [ih, buildStep_max_sig]
      simp only [specMaxSigLen32, List.foldr_cons]
      exact Nat.max_assoc ..

theorem from_entries_root (es : List SignatureEntry) :
    (from_entries es).root
      = es.foldl (fun r e => r.insert e.signature e.type) (.mk none []) := by
  simp only [from_entries]
  exact foldl_buildStep_root es _

theorem from_entries_mbs (es : List SignatureEntry) :
    (from_entries es).max_buffer_size
      = (specMaxOffset es + specMaxSigLen32 es) % u32Size := by
  simp only [from_entries]
  rw [foldl_buildStep_max_offset, foldl_buildStep_max_sig]
  simp [MagicNumberTrie.defaultTrie]

theorem from_entries_po (es : List SignatureEntry) :
    (from_entries es).possible_offsets
      = sortOffsets (es.foldl (fun u e => insertSet u e.offset) []) := by
  simp only [from_entries]
  rw [foldl_buildStep_snd]

/-! ## Helper lemmas: the offset set and its sort -/

theorem insSorted_perm (x : Nat) (l : List Nat) : List.Perm (insSorted x l) (x :: l) := by
  induction l with
  | nil => exact List.Perm.refl _
  | cons y ys ih =>
      by_cases h : x ≤ y
      · simp [insSorted, h]
      · simp only [insSorted, if_neg h]
        exact (List.Perm.cons y ih).trans (List.Perm.swap x y ys)

theorem sortOffsets_perm (l : List Nat) : List.Perm (sortOffsets l) l := by
  induction l with
  | nil => exact List.Perm.refl _
  | cons a as ih =>
      simp only [sortOffsets, List.foldr_cons]
      exact (insSorted_perm a _).trans (List.Perm.cons a ih)

theorem insSorted_sorted (x : Nat) {l : List Nat} (h : l.Sorted (· ≤ ·)) :
    (insSorted x l).Sorted (· ≤ ·) := by
  induction l with
  | nil => simp [insSorted]
  | cons y ys ih =>
      rw [List.sorted_cons] at h
      by_cases hxy : x ≤ y
      · rw [insSorted, if_pos hxy, List.sorted_cons]
        constructor
        · intro b hb
          rcases List.mem_cons.1 hb with rfl | hb
          · exact hxy
          · exact le_trans hxy (h.1 b hb)
        · rw [List.sorted_cons]
          exact h
      · rw [insSorted, if_neg hxy, List.sorted_cons]
        constructor
        · intro b hb
          rcases List.mem_cons.1 ((insSorted_perm x ys).mem_iff.1 hb) with rfl | hb
          · omega
          · exact h.1 b hb
        · exact ih h.2

theorem sortOffsets_sorted (l : List Nat) : (sortOffsets l).Sorted (· ≤ ·) := by
  induction l with
  | nil => simp [sortOffsets]
  | cons a as ih =>
      simp only [sortOffsets, List.foldr_cons]
      exact insSorted_sorted a ih

theorem insertSet_nodup (x : Nat) {s : List Nat} (h : s.Nodup) : (insertSet s x).Nodup := by
  by_cases hx : x ∈ s
  · simpa [insertSet, hx] using h
  · simp [insertSet, hx, h]

theorem foldl_insertSet_nodup (es : List SignatureEntry) :
    ∀ u : List Nat, u.Nodup → (es.foldl (fun u e => insertSet u e.offset) u).Nodup := by
  induction es with
  | nil => intro u h; exact h
  | cons e es ih =>
      intro u h
      exact ih _ (insertSet_nodup e.offset h)

theorem pairwise_lt_of_sorted_nodup :
    ∀ {l : List Nat}, l.Sorted (· ≤ ·) → l.Nodup → l.Pairwise (· < ·) := by
  intro l
  induction l with
  | nil => intro _ _; exact List.Pairwise.nil
  | cons a as ih =>
      intro hs hn
      rw [List.sorted_cons] at hs
      rw [List.nodup_cons] at hn
      refine List.Pairwise.cons ?_ (ih hs.2 hn.2)
      intro b hb
      rcases Nat.lt_or_ge a b with h | h
      · exact h
      · have : a = b := le_antisymm (hs.1 b hb) h
        exact absurd (this ▸ hb) hn.1

theorem from_entries_offsets_sorted (es : List SignatureEntry) :
    (from_entries es).possible_offsets.Sorted (· ≤ ·) := by
  rw [from_entries_po]
  exact sortOffsets_sorted _

theorem from_entries_offsets_nodup (es : List SignatureEntry) :
    (from_entries es).possible_offsets.Nodup := by
  rw [from_entries_po]
  exact ((sortOffsets_perm _).nodup_iff).2 (foldl_insertSet_nodup es [] List.nodup_nil)

theorem from_entries_offsets_pairwise_lt (es : List SignatureEntry) :
    (from_entries es).possible_offsets.Pairwise (· < ·) :=
  pairwise_lt_of_sorted_nodup (from_entries_offsets_sorted es) (from_entries_offsets_nodup es)

/-! ## Helper lemmas: algebra of `insert` -/

theorem insert_insert_same (s : List Nat) :
    ∀ (n : TrieNode) (l : String),
      TrieNode.insert (TrieNode.insert n s l) s l = TrieNode.insert n s l := by
  induction s with
  | nil => intro n l; cases n; rfl
  | cons b bs ih =>
      intro n l
      cases n with
      | mk lbl ch =>
          simp only [TrieNode.insert, lookupChild_updateChild_self, Option.getD_some,
            updateChild_updateChild_self]
          rw [ih]

theorem insert_insert_overwrite (s : List Nat) :
    ∀ (n : TrieNode) (l1 l2 : String),
      TrieNode.insert (TrieNode.insert n s l1) s l2 = TrieNode.insert n s l2 := by
  induction s with
  | nil => intro n l1 l2; cases n; rfl
  | cons b bs ih =>
      intro n l1 l2
      cases n with
      | mk lbl ch =>
          simp only [TrieNode.insert, lookupChild_updateChild_self, Option.getD_some,
            updateChild_updateChild_self]
          rw [ih]

theorem labelAt_insert (s : List Nat) :
    ∀ (n : TrieNode) (l : String), labelAt (TrieNode.insert n s l) s = some l := by
  induction s with
  | nil => intro n l; cases n; rfl
  | cons b bs ih =>
      intro n l
      cases n with
      | mk lbl ch =>
          simp only [TrieNode.insert, labelAt, TrieNode.children,
            lookupChild_updateChild_self]
          exact ih _ l

/-! ## Helper lemmas: the search loop -/

theorem trieMatchRoot_nil (r : TrieNode) : trieMatchRoot r [] = none := by
  cases r
  rfl

theorem trieMatchGo_label_irrel (x y : Option String) (ch : List (Nat × TrieNode))
    (input : List Nat) (best : Option String) :
    trieMatchGo (.mk x ch) input best = trieMatchGo (.mk y ch) input best := by
  cases input <;> rfl

theorem searchOffsets_label_irrel (x y : Option String) (ch : List (Nat × TrieNode)) :
    ∀ os buf : List Nat, searchOffsets (.mk x ch) os buf = searchOffsets (.mk y ch) os buf := by
  intro os
  induction os with
  | nil => intro buf; rfl
  | cons o os ih =>
      intro buf
      simp only [searchOffsets, trieMatchRoot,
        trieMatchGo_label_irrel x y ch (buf.drop o) none, ih buf]

theorem searchOffsets_skip (r : TrieNode) (o : Nat) (os buf : List Nat)
    (h : buf.length ≤ o) :
    searchOffsets r (o :: os) buf = searchOffsets r os buf := by
  rcases Nat.lt_or_ge buf.length o with hlt | hge
  · simp [searchOffsets, hlt]
  · have ho : buf.length = o := le_antisymm h hge
    have hdrop : buf.drop o = [] := by
      apply List.eq_nil_of_length_eq_zero
      simp [List.length_drop, ho]
    simp [searchOffsets, Nat.not_lt.2 hge, hdrop, trieMatchRoot_nil]

theorem searchOffsets_none (r : TrieNode) (buf : List Nat) :
    ∀ os : List Nat,
      (∀ o ∈ os, buf.length < o ∨ trieMatchRoot r (buf.drop o) = none) →
      searchOffsets r os buf = none := by
  intro os
  induction os with
  | nil => intro _; rfl
  | cons o os ih =>
      intro h
      by_cases hlt : buf.length < o
      · simp only [searchOffsets, if_pos hlt]
        exact ih fun o' ho' => h o' (List.mem_cons_of_mem o ho')
      · have hm : trieMatchRoot r (buf.drop o) = none := by
          rcases h o (List.mem_cons_self o os) with h1 | h2
          · exact absurd h1 hlt
          · exact h2
        simp only [searchOffsets, if_neg hlt, hm]
        exact ih fun o' ho' => h o' (List.mem_cons_of_mem o ho')

theorem searchOffsets_first (r : TrieNode) (buf : List Nat) (l : String) :
    ∀ os : List Nat, os.Pairwise (· < ·) →
      ∀ o : Nat, o ∈ os → ¬ buf.length < o → trieMatchRoot r (buf.drop o) = some l →
      (∀ o' ∈ os, o' < o → buf.length < o' ∨ trieMatchRoot r (buf.drop o') = none) →
      searchOffsets r os buf = some l := by
  intro os
  induction os with
  | nil => intro _ o ho; exact absurd ho (List.not_mem_nil o)
  | cons o0 os ih =>
      intro hp o ho hlen hmatch hmin
      have hp' := (List.pairwise_cons.1 hp)
      rcases List.mem_cons.1 ho with rfl | ho'
      · simp only [searchOffsets, if_neg hlen, hmatch]
      · have h0o : o0 < o := hp'.1 o ho'
        rcases hmin o0 (List.mem_cons_self o0 os) h0o with h1 | h2
        · simp only [searchOffsets, if_pos h1]
          exact ih hp'.2 o ho' hlen hmatch
            fun o' ho'' ho''' => hmin o' (List.mem_cons_of_mem o0 ho'') ho'''
        · by_cases hb : buf.length < o0
          · simp only [searchOffsets, if_pos hb]
            exact ih hp'.2 o ho' hlen hmatch
              fun o' ho'' ho''' => hmin o' (List.mem_cons_of_mem o0 ho'') ho'''
          · simp only [searchOffsets, if_neg hb, h2]
            exact ih hp'.2 o ho' hlen hmatch
              fun o' ho'' ho''' => hmin o' (List.mem_cons_of_mem o0 ho'') ho'''

theorem searchOffsets_found (r : TrieNode) (buf : List Nat) (l : String) :
    ∀ os : List Nat, os.Pairwise (· < ·) →
      searchOffsets r os buf = some l →
      ∃ o : Nat, o ∈ os ∧ ¬ buf.length < o ∧ trieMatchRoot r (buf.drop o) = some l ∧
        ∀ o' ∈ os, o' < o → buf.length < o' ∨ trieMatchRoot r (buf.drop o') = none := by
  intro os
  induction os with
  | nil => intro _ h; exact absurd h (by simp [searchOffsets])
  | cons o0 os ih =>
      intro hp h
      have hp' := (List.pairwise_cons.1 hp)
      by_cases hb : buf.length < o0
      · rw [searchOffsets, if_pos hb] at h
        obtain ⟨o, ho, hlen, hmatch, hmin⟩ := ih hp'.2 h
        refine ⟨o, List.mem_cons_of_mem o0 ho, hlen, hmatch, ?_⟩
        intro o' ho' hlt
        rcases List.mem_cons.1 ho' with rfl | ho''
        · exact Or.inl hb
        · exact hmin o' ho'' hlt
      · rw [searchOffsets, if_neg hb] at h
        cases hm : trieMatchRoot r (buf.drop o0) with
        | some ft =>
            rw [hm] at h
            have hfl : ft = l := by
              simpa using h
            refine ⟨o0, List.mem_cons_self o0 os, hb, by rw [hm, hfl], ?_⟩
            intro o' ho' hlt
            rcases List.mem_cons.1 ho' with rfl | ho''
            · exact absurd hlt (lt_irrefl o')
            · exact absurd hlt (Nat.not_lt.2 (le_of_lt (hp'.1 o' ho'')))
        | none =>
            rw [hm] at h
            obtain ⟨o, ho, hlen, hmatch, hmin⟩ := ih hp'.2 h
            refine ⟨o, List.mem_cons_of_mem o0 ho, hlen, hmatch, ?_⟩
            intro o' ho' hlt
            rcases List.mem_cons.1 ho' with rfl | ho''
            · exact Or.inr hm
            · exact hmin o' ho'' hlt

/-! ## Claim theorems -/

theorem two_entry_offsets (la lb : String) (o : Nat) (A B : List Nat) :
    (from_entries [⟨la, o, A⟩, ⟨lb, o, B⟩]).possible_offsets = [o] := by
  rw [from_entries_po]
  simp [insertSet, sortOffsets, insSorted]

/-- Claim C1: longest match wins within one offset attempt.  For the
catalog holding a signature `A` with label `la` and its strict extension
`A ++ c :: cs` with label `lb` at the same offset `o` (in either
insertion order), any buffer whose sub-slice at offset `o` starts with
the full extended signature makes `search` return `lb`, and never `la`
when the two labels differ: the walk records the label of every
labelled node it passes, so the deepest label overwrites the earlier
one. -/
theorem longest_match_wins (la lb : String) (o : Nat) (A : List Nat) (c : Nat)
    (cs rest buf : List Nat) (hbuf : buf.drop o = (A ++ c :: cs) ++ rest) :
    (from_entries [⟨la, o, A⟩, ⟨lb, o, A ++ c :: cs⟩]).search buf = some lb ∧
    (from_entries [⟨lb, o, A ++ c :: cs⟩, ⟨la, o, A⟩]).search buf = some lb ∧
    (la ≠ lb → (from_entries [⟨la, o, A⟩, ⟨lb, o, A ++ c :: cs⟩]).search buf ≠ some la) := by
  have hbuf2 : buf.drop o = A ++ c :: (cs ++ rest) := by
    rw [hbuf]
    simp [List.append_assoc]
  have hlen : ¬ buf.length < o := by
    have h1 : (buf.drop o).length = buf.length - o := by simp
    rw [hbuf2] at h1
    simp [List.length_append] at h1
    omega
  have hroot1 : (from_entries [⟨la, o, A⟩, ⟨lb, o, A ++ c :: cs⟩]).root
      = pathNode2 A c cs la lb := by
    rw [from_entries_root]
    simp only [List.foldl_cons, List.foldl_nil]
    rw [insert_empty_eq_pathNode, insert_extension_eq_pathNode2]
  have hroot2 : (from_entries [⟨lb, o, A ++ c :: cs⟩, ⟨la, o, A⟩]).root
      = pathNode2 A c cs la lb := by
    rw [from_entries_root]
    simp only [List.foldl_cons, List.foldl_nil]
    rw [insert_empty_eq_pathNode, insert_along_eq_pathNode2]
  have hmatch : trieMatchRoot (pathNode2 A c cs la lb) (buf.drop o) = some lb := by
    rw [hbuf2]
    exact trieMatchGo_pathNode2 A c cs rest la lb none
  have h1 : (from_entries [⟨la, o, A⟩, ⟨lb, o, A ++ c :: cs⟩]).search buf = some lb := by
    rw [MagicNumberTrie.search, two_entry_offsets, hroot1]
    simp only [searchOffsets, if_neg hlen, hmatch]
  have h2 : (from_entries [⟨lb, o, A ++ c :: cs⟩, ⟨la, o, A⟩]).search buf = some lb := by
    rw [MagicNumberTrie.search, two_entry_offsets, hroot2]
    simp only [searchOffsets, if_neg hlen, hmatch]
  refine ⟨h1, h2, ?_⟩
  intro hne hcontra
  rw [h1] at hcontra
  exact hne (Option.some.inj hcontra).symm

theorem longest_match_wins_witness :
    ([0, 10, 20, 7] : List Nat).drop 1 = (([10] ++ 20 :: []) ++ [7]) ∧
    (from_entries [⟨"A", 1, [10]⟩, ⟨"B", 1, [10] ++ 20 :: []⟩]).search [0, 10, 20, 7]
      = some "B" :=
  ⟨by decide, (longest_match_wins "A" "B" 1 [10] 20 [] [7] [0, 10, 20, 7] (by decide)).1⟩

/-- Claim C2: offset precedence with short-circuit.  For every built
trie and buffer, `search` returns `some l` exactly when some offset of
`possible_offsets` fits in the buffer, its trie walk yields `l`, and
every strictly smaller offset of `possible_offsets` is either skipped
(buffer too short) or yields an empty walk.  Since `possible_offsets`
is strictly ascending, this says the offsets are tried in ascending
numeric order, the first offset whose walk yields a non-empty best
match wins, and no cross-offset comparison of matches is made. -/
theorem offset_precedence (es : List SignatureEntry) (buf : List Nat) (l : String) :
    (from_entries es).search buf = some l ↔
      ∃ o : Nat, o ∈ (from_entries es).possible_offsets ∧ ¬ buf.length < o ∧
        (from_entries es).trie_match (buf.drop o) = some l ∧
        ∀ o' ∈ (from_entries es).possible_offsets, o' < o →
          buf.length < o' ∨ (from_entries es).trie_match (buf.drop o') = none := by
  simp only [MagicNumberTrie.search, MagicNumberTrie.trie_match]
  constructor
  · intro h
    exact searchOffsets_found _ _ _ _ (from_entries_offsets_pairwise_lt es) h
  · rintro ⟨o, ho, hlen, hm, hmin⟩
    exact searchOffsets_first _ _ _ _ (from_entries_offsets_pairwise_lt es) o ho hlen hm hmin

theorem offset_precedence_witness :
    (from_entries [⟨"ZIP", 0, [80, 75]⟩, ⟨"XML", 4, [60, 63]⟩]).search
        [80, 75, 0, 0, 60, 63] = some "ZIP" :=
  (offset_precedence [⟨"ZIP", 0, [80, 75]⟩, ⟨"XML", 4, [60, 63]⟩] [80, 75, 0, 0, 60, 63]
    "ZIP").mpr ⟨0, by decide, by decide, by decide, by decide⟩

theorem specMaxSigLen32_eq_of_lt {es : List SignatureEntry}
    (h : specMaxSigLen es < u32Size) : specMaxSigLen32 es = specMaxSigLen es := by
  induction es with
  | nil => rfl
  | cons a as ih =>
      simp only [specMaxSigLen, List.foldr_cons] at h
      have h1 : a.signature.length < u32Size := lt_of_le_of_lt (Nat.le_max_left _ _) h
      have h2 : specMaxSigLen as < u32Size := lt_of_le_of_lt (Nat.le_max_right _ _) h
      simp only [specMaxSigLen32, specMaxSigLen, List.foldr_cons]
      rw [Nat.mod_eq_of_lt h1]
      exact congrArg _ (ih h2)

/-- Claim C3 is refuted by the `u32` arithmetic of the loader: for the
parseable one-entry catalog with offset `4294967295` and a length-1
signature, the `u32` sum of the maxima wraps to `0`, which differs from
the claimed maximum offset plus maximum signature length. -/
theorem sum_of_maxima_counterexample :
    ¬ ((from_entries [⟨"T", 4294967295, [1]⟩]).max_buffer_size
        = specMaxOffset [⟨"T", 4294967295, [1]⟩]
          + specMaxSigLen [⟨"T", 4294967295, [1]⟩]) := by
  decide

/-- Claim C3, amended for `u32` arithmetic: after loading any catalog,
`max_buffer_size` equals the maximum offset over all entries plus the
maximum `u32`-truncated signature length over all entries, the sum
taken mod `2 ^ 32` (the wrapping `u32` addition of `src/trie.rs` line
79) — still the sum of the maxima, not a per-entry maximum.  Whenever
the true sum of maxima fits in `u32`, it equals that sum exactly; in
particular the catalog with entries `(offset 2, length-4 signature)`
and `(offset 0, length-3 signature)` yields `max_buffer_size = 6`. -/
theorem sum_of_maxima_u32 (es : List SignatureEntry) :
    (from_entries es).max_buffer_size
      = (specMaxOffset es + specMaxSigLen32 es) % u32Size ∧
    (specMaxOffset es + specMaxSigLen es < u32Size →
      (from_entries es).max_buffer_size = specMaxOffset es + specMaxSigLen es) ∧
    (from_entries [⟨"T1", 2, [1, 2, 3, 4]⟩, ⟨"T2", 0, [5, 6, 7]⟩]).max_buffer_size = 6 := by
  refine ⟨from_entries_mbs es, ?_, by decide⟩
  intro h
  have hsig : specMaxSigLen es < u32Size := by omega
  rw [from_entries_mbs, specMaxSigLen32_eq_of_lt hsig, Nat.mod_eq_of_lt h]

theorem sum_of_maxima_u32_witness :
    specMaxOffset [(⟨"T1", 2, [1, 2, 3, 4]⟩ : SignatureEntry), ⟨"T2", 0, [5, 6, 7]⟩]
        + specMaxSigLen [(⟨"T1", 2, [1, 2, 3, 4]⟩ : SignatureEntry), ⟨"T2", 0, [5, 6, 7]⟩]
      < u32Size ∧
    (from_entries [(⟨"T1", 2, [1, 2, 3, 4]⟩ : SignatureEntry),
        ⟨"T2", 0, [5, 6, 7]⟩]).max_buffer_size
      = specMaxOffset [(⟨"T1", 2, [1, 2, 3, 4]⟩ : SignatureEntry), ⟨"T2", 0, [5, 6, 7]⟩]
        + specMaxSigLen [(⟨"T1", 2, [1, 2, 3, 4]⟩ : SignatureEntry), ⟨"T2", 0, [5, 6, 7]⟩] :=
  ⟨by decide,
   (sum_of_maxima_u32
      [(⟨"T1", 2, [1, 2, 3, 4]⟩ : SignatureEntry), ⟨"T2", 0, [5, 6, 7]⟩]).2.1 (by decide)⟩

/-- Claim C5: no match is absence, not an error.  For every built trie
and buffer: if the buffer is shorter than every configured offset,
`search` returns `none`; more generally, whenever no offset admits a
walk ending in a labelled node, `search` returns `none`; and `search`
always returns a value of `Option String` (it is total and cannot
fail), so the third conjunct exhibits its only two possible shapes. -/
theorem no_match_is_none (t : MagicNumberTrie) (buf : List Nat) :
    ((∀ o ∈ t.possible_offsets, buf.length < o) → t.search buf = none) ∧
    ((∀ o ∈ t.possible_offsets, buf.length < o ∨ t.trie_match (buf.drop o) = none) →
      t.search buf = none) ∧
    (t.search buf = none ∨ ∃ l : String, t.search buf = some l) := by
  refine ⟨?_, ?_, ?_⟩
  · intro h
    exact searchOffsets_none t.root buf t.possible_offsets fun o ho => Or.inl (h o ho)
  · intro h
    exact searchOffsets_none t.root buf t.possible_offsets h
  · cases h : t.search buf with
    | none => exact Or.inl rfl
    | some l => exact Or.inr ⟨l, rfl⟩

theorem no_match_is_none_witness :
    (∀ o ∈ (from_entries [⟨"PNG", 3, [137, 80]⟩]).possible_offsets,
        ([1, 2] : List Nat).length < o) ∧
    (from_entries [⟨"PNG", 3, [137, 80]⟩]).search [1, 2] = none :=
  ⟨by decide,
   (no_match_is_none (from_entries [⟨"PNG", 3, [137, 80]⟩]) [1, 2]).1 (by decide)⟩

theorem mem_le_specMaxOffset {es : List SignatureEntry} {e : SignatureEntry} (he : e ∈ es) :
    e.offset ≤ specMaxOffset es := by
  induction es with
  | nil => exact absurd he (List.not_mem_nil e)
  | cons a as ih =>
      simp only [specMaxOffset, List.foldr_cons]
      rcases List.mem_cons.1 he with rfl | he'
      · exact Nat.le_max_left _ _
      · exact le_trans (ih he') (Nat.le_max_right _ _)

theorem mem_le_specMaxSigLen {es : List SignatureEntry} {e : SignatureEntry} (he : e ∈ es) :
    e.signature.length ≤ specMaxSigLen es := by
  induction es with
  | nil => exact absurd he (List.not_mem_nil e)
  | cons a as ih =>
      simp only [specMaxSigLen, List.foldr_cons]
      rcases List.mem_cons.1 he with rfl | he'
      · exact Nat.le_max_left _ _
      · exact le_trans (ih he') (Nat.le_max_right _ _)

/-- Claim C6: idempotent construction.  Inserting the identical
signature/label pair twice produces a trie that is equal node for node
to the trie obtained by inserting it once (repeated insertion walks the
existing nodes and re-sets the same label), so in particular the search
function over any offset list agrees on every buffer. -/
theorem insert_idempotent (n : TrieNode) (s : List Nat) (l : String) :
    TrieNode.insert (TrieNode.insert n s l) s l = TrieNode.insert n s l ∧
    ∀ os buf : List Nat,
      searchOffsets (TrieNode.insert (TrieNode.insert n s l) s l) os buf
        = searchOffsets (TrieNode.insert n s l) os buf := by
  refine ⟨insert_insert_same s n l, ?_⟩
  intro os buf
  rw [insert_insert_same]

/-- Claim C7: last write wins on duplicate byte sequences.  Inserting
byte sequence `s` first with label `l1` and then with label `l2`
produces the same trie as inserting `l2` alone; the terminal node for
`s` carries `l2`, any search over the doubly-inserted trie agrees with
the `l2`-only trie on every buffer, and when the labels differ the
terminal node does not carry `l1`. -/
theorem last_write_wins (n : TrieNode) (s : List Nat) (l1 l2 : String) :
    TrieNode.insert (TrieNode.insert n s l1) s l2 = TrieNode.insert n s l2 ∧
    labelAt (TrieNode.insert (TrieNode.insert n s l1) s l2) s = some l2 ∧
    (∀ os buf : List Nat,
      searchOffsets (TrieNode.insert (TrieNode.insert n s l1) s l2) os buf
        = searchOffsets (TrieNode.insert n s l2) os buf) ∧
    (l1 ≠ l2 → labelAt (TrieNode.insert (TrieNode.insert n s l1) s l2) s ≠ some l1) := by
  have h := insert_insert_overwrite s n l1 l2
  refine ⟨h, ?_, ?_, ?_⟩
  · rw [h]
    exact labelAt_insert s n l2
  · intro os buf
    rw [h]
  · intro hne hcontra
    rw [h, labelAt_insert s n l2] at hcontra
    exact hne (Option.some.inj hcontra).symm

theorem last_write_wins_witness :
    ("L1" : String) ≠ "L2" ∧
    labelAt (TrieNode.insert (TrieNode.insert (.mk none []) [3, 4] "L1") [3, 4] "L2") [3, 4]
      ≠ some "L1" :=
  ⟨by decide, (last_write_wins (.mk none []) [3, 4] "L1" "L2").2.2.2 (by decide)⟩

/-- Claim C8 is refuted in its buffer-size conjunct by the same `u32`
wrap: for the parseable one-entry catalog with offset `4294967295` and
a length-1 signature, that entry's `offset + signature.length` exceeds
the wrapped `max_buffer_size` of `0`. -/
theorem construction_invariants_counterexample :
    ¬ ((⟨"T", 4294967295, [1]⟩ : SignatureEntry).offset
        + (⟨"T", 4294967295, [1]⟩ : SignatureEntry).signature.length
      ≤ (from_entries [(⟨"T", 4294967295, [1]⟩ : SignatureEntry)]).max_buffer_size) := by
  decide

/-- Claim C8, amended for `u32` arithmetic: after loading any catalog,
`possible_offsets` is sorted ascending with no duplicate offsets
(unchanged), and `max_buffer_size` is at least `offset +
signature.length` for every individual catalog entry provided the sum
of the maximum offset and the maximum signature length fits in `u32`
(otherwise the wrapping addition of `src/trie.rs` line 79 breaks the
bound, as the counterexample shows). -/
theorem construction_invariants_u32 (es : List SignatureEntry) :
    (from_entries es).possible_offsets.Sorted (· ≤ ·) ∧
    (from_entries es).possible_offsets.Nodup ∧
    (specMaxOffset es + specMaxSigLen es < u32Size →
      ∀ e ∈ es, e.offset + e.signature.length ≤ (from_entries es).max_buffer_size) := by
  refine ⟨from_entries_offsets_sorted es, from_entries_offsets_nodup es, ?_⟩
  intro h e he
  have hsig : specMaxSigLen es < u32Size := by omega
  rw [from_entries_mbs, specMaxSigLen32_eq_of_lt hsig, Nat.mod_eq_of_lt h]
  have h1 : e.offset ≤ specMaxOffset es := mem_le_specMaxOffset he
  have h2 : e.signature.length ≤ specMaxSigLen es := mem_le_specMaxSigLen he
  omega

theorem construction_invariants_u32_witness :
    specMaxOffset [(⟨"T1", 2, [1, 2, 3, 4]⟩ : SignatureEntry), ⟨"T2", 0, [5, 6, 7]⟩]
        + specMaxSigLen [(⟨"T1", 2, [1, 2, 3, 4]⟩ : SignatureEntry), ⟨"T2", 0, [5, 6, 7]⟩]
      < u32Size ∧
    (⟨"T1", 2, [1, 2, 3, 4]⟩ : SignatureEntry) ∈
        [(⟨"T1", 2, [1, 2, 3, 4]⟩ : SignatureEntry), ⟨"T2", 0, [5, 6, 7]⟩] ∧
    2 + 4 ≤ (from_entries
        [(⟨"T1", 2, [1, 2, 3, 4]⟩ : SignatureEntry), ⟨"T2", 0, [5, 6, 7]⟩]).max_buffer_size :=
  ⟨by decide, by decide,
   (construction_invariants_u32
      [(⟨"T1", 2, [1, 2, 3, 4]⟩ : SignatureEntry), ⟨"T2", 0, [5, 6, 7]⟩]).2.2 (by decide)
     ⟨"T1", 2, [1, 2, 3, 4]⟩ (by decide)⟩

/-- Claim C9: search is total and stays in bounds.  The walk on an
empty sub-slice yields no match; an offset at least as large as the
buffer length is skipped by the search loop (in the boundary case where
they are equal, the walk runs on the empty slice and yields nothing),
so no sub-slice is ever taken out of bounds; and `search` always
terminates with a value, which is either `none` or `some` label. -/
theorem search_total_in_bounds (r : TrieNode) (t : MagicNumberTrie) (o : Nat)
    (os buf : List Nat) :
    trieMatchRoot r [] = none ∧
    (buf.length ≤ o → searchOffsets r (o :: os) buf = searchOffsets r os buf) ∧
    (t.search buf = none ∨ ∃ l : String, t.search buf = some l) := by
  refine ⟨trieMatchRoot_nil r, fun h => searchOffsets_skip r o os buf h, ?_⟩
  cases h : t.search buf with
  | none => exact Or.inl rfl
  | some l => exact Or.inr ⟨l, rfl⟩

theorem search_total_in_bounds_witness :
    ([5, 5] : List Nat).length ≤ 2 ∧
    searchOffsets (pathNode [9] "X") (2 :: [3]) [5, 5]
      = searchOffsets (pathNode [9] "X") [3] [5, 5] :=
  ⟨by decide,
   (search_total_in_bounds (pathNode [9] "X") (from_entries []) 2 [3] [5, 5]).2.1 (by decide)⟩

/-- Claim C10: inserting an empty signature is a behavioural no-op for
search.  It sets the label of the root node and changes nothing else,
and since the walk only ever reads the labels of child nodes reached by
consuming at least one byte, the root label is unreachable: search over
any offset list returns exactly what it returns on the original trie. -/
theorem empty_signature_noop (r : TrieNode) (l : String) (os buf : List Nat) :
    (TrieNode.insert r [] l).file_type = some l ∧
    (TrieNode.insert r [] l).children = r.children ∧
    searchOffsets (TrieNode.insert r [] l) os buf = searchOffsets r os buf := by
  cases r with
  | mk x ch =>
      refine ⟨rfl, rfl, ?_⟩
      exact searchOffsets_label_irrel (some l) x ch os buf

/-- Claim C4: classification policy.  For every file that is a regular
file whose extension and content were obtained successfully, the buffer
is the first `max_buffer_size` bytes of the content and the declared
type is the upper-cased extension; the file is classified `Correct`
exactly when the label returned by `search` contains the declared type
as a case-sensitive substring, it is `Incorrect` carrying that label
when the label lacks the substring, and when `search` returns no match
it is `Incorrect` with actual type exactly `"Unknown"` (so never
`Correct` and never `Error`). -/
theorem classification_policy (f : FileModel) (t : MagicNumberTrie) (ext : String)
    (bytes : List Nat) (hf : f.is_file = true) (he : f.extension = some ext)
    (hc : f.content = some bytes) :
    (∀ l : String, t.search (bytes.take t.max_buffer_size) = some l →
        process_file f t =
          (if strContains l (to_uppercase ext) then .Correct f.path
           else .Incorrect f.path (to_uppercase ext) l)) ∧
    (t.search (bytes.take t.max_buffer_size) = none →
        process_file f t = .Incorrect f.path (to_uppercase ext) "Unknown") := by
  constructor
  · intro l hl
    simp only [process_file, hf, Bool.not_true, Bool.false_eq_true, if_false,
      get_file_info, he, hc, hl]
  · intro hl
    simp only [process_file, hf, Bool.not_true, Bool.false_eq_true, if_false,
      get_file_info, he, hc, hl]

theorem classification_policy_witness :
    (from_entries [⟨"PNG", 0, [137, 80, 78, 71]⟩]).search
        (([137, 80, 78, 71, 13, 10] : List Nat).take
          (from_entries [⟨"PNG", 0, [137, 80, 78, 71]⟩]).max_buffer_size) = some "PNG" ∧
    process_file ⟨"a.png", true, some "png", some [137, 80, 78, 71, 13, 10], ""⟩
        (from_entries [⟨"PNG", 0, [137, 80, 78, 71]⟩])
      = .Correct "a.png" :=
  ⟨by decide, by
    rw [(classification_policy ⟨"a.png", true, some "png", some [137, 80, 78, 71, 13, 10], ""⟩
      (from_entries [⟨"PNG", 0, [137, 80, 78, 71]⟩]) "png" [137, 80, 78, 71, 13, 10]
      rfl rfl rfl).1 "PNG" (by decide)]
    decide⟩
